import Mathlib

/-!
Verification development for the PQAEF evaluation-harness runner.

The Python source under study is shallowly embedded in Lean:

* Python dicts are association lists `List (String × β)` whose key lists are
  duplicate-free (`keysNodup`); dict assignment is `setKey` and
  `base.update(upd)` is `dictUpdate`.
* `json.dumps(d, sort_keys=True)` is modelled by `canonKey`, the association
  list sorted by key.  `json.dumps` with sorted keys is injective on dicts,
  so the sorted association list is a faithful stand-in for the string key.
* Fallible Python code returns `Except PyErr _`; raising is `Except.error`.
* The asyncio event loop is modelled by an explicit completion order (a
  permutation of the task indices) and, for the semaphore bound, by a small
  transition system.
-/

/-- Python exception values raised by the embedded code paths. -/
inductive PyErr where
  | valueError (msg : String)
  | typeError (msg : String)
  | indexError (msg : String)
  | attributeError (msg : String)
  | nameError (msg : String)
  | runtimeError (msg : String)
  deriving DecidableEq, Repr

/-- Scalar Python values appearing in parameter dicts of the local model
(generation kwargs such as temperature, max_new_tokens, do_sample) and as
prompts. -/
inductive PVal where
  | vstr (s : String)
  | vint (n : Int)
  | vbool (b : Bool)
  | vnone
  deriving DecidableEq, Repr

/-- First-match lookup in an association list; on duplicate-free keys this is
exactly Python `d[k]` / `d.get(k)`. -/
def keyLookup {β : Type} (k : String) : List (String × β) → Option β
  | [] => none
  | p :: rest => if p.1 = k then some p.2 else keyLookup k rest

/-- Python `d[k] = v`: replace the value of the key in place when present
(keeping its position, as a Python dict does), else append the new pair at
the end (Python dicts keep insertion order). -/
def setKey {β : Type} : List (String × β) → String → β → List (String × β)
  | [], k, v => [(k, v)]
  | p :: rest, k, v =>
      if p.1 = k then (k, v) :: rest else p :: setKey rest k v

/-- Python `base.update(upd)` applied to a copy of `base`: assign every pair
of `upd` into `base`, in order. -/
def dictUpdate {β : Type} (base upd : List (String × β)) : List (String × β) :=
  upd.foldl (fun d p => setKey d p.1 p.2) base

/-- The association list has duplicate-free keys, as every Python dict does. -/
def keysNodup {β : Type} (d : List (String × β)) : Prop :=
  (d.map Prod.fst).Nodup

instance {β : Type} (d : List (String × β)) : Decidable (keysNodup d) := by
  unfold keysNodup; infer_instance

theorem keyLookup_eq_none_of_not_mem {β : Type} {k : String} :
    ∀ {d : List (String × β)}, k ∉ d.map Prod.fst → keyLookup k d = none := by
  intro d
  induction d with
  | nil => intro _; rfl
  | cons p rest ih =>
    intro h
    simp only [List.map_cons, List.mem_cons] at h
    push_neg at h
    have hp : p.1 ≠ k := fun hh => h.1 hh.symm
    rw [keyLookup, if_neg hp]
    exact ih h.2

theorem keyLookup_setKey_self {β : Type} (d : List (String × β)) (k : String)
    (v : β) : keyLookup k (setKey d k v) = some v := by
  induction d with
  | nil => simp [setKey, keyLookup]
  | cons p rest ih =>
    by_cases hp : p.1 = k
    · simp [setKey, hp, keyLookup]
    · simp [setKey, hp, keyLookup, ih]

theorem keyLookup_setKey_ne {β : Type} (d : List (String × β)) {k k' : String}
    (v : β) (h : k' ≠ k) : keyLookup k' (setKey d k v) = keyLookup k' d := by
  have hkk : k ≠ k' := fun hh => h hh.symm
  induction d with
  | nil => simp [setKey, keyLookup, hkk]
  | cons p rest ih =>
    by_cases hp : p.1 = k
    · have hpk' : p.1 ≠ k' := by rw [hp]; exact hkk
      rw [setKey, if_pos hp]
      show (if k = k' then some v else keyLookup k' rest) =
        if p.1 = k' then some p.2 else keyLookup k' rest
      rw [if_neg hkk, if_neg hpk']
    · simp only [setKey, if_neg hp, keyLookup]
      by_cases hp' : p.1 = k'
      · simp [hp']
      · simp [hp', ih]

theorem mem_map_fst_setKey {β : Type} {a k : String} {v : β}
    {d : List (String × β)} :
    a ∈ (setKey d k v).map Prod.fst ↔ a ∈ d.map Prod.fst ∨ a = k := by
  induction d with
  | nil => simp [setKey]
  | cons p rest ih =>
    by_cases hp : p.1 = k
    · rw [setKey, if_pos hp]
      simp only [List.map_cons, List.mem_cons, hp]
      tauto
    · rw [setKey, if_neg hp]
      simp only [List.map_cons, List.mem_cons, ih]
      tauto

theorem keysNodup_setKey {β : Type} {d : List (String × β)} (k : String)
    (v : β) (hd : keysNodup d) : keysNodup (setKey d k v) := by
  induction d with
  | nil => simp [setKey, keysNodup]
  | cons p rest ih =>
    simp only [keysNodup, List.map_cons, List.nodup_cons] at hd
    by_cases hp : p.1 = k
    · rw [setKey, if_pos hp]
      simp only [keysNodup, List.map_cons, List.nodup_cons]
      exact ⟨hp ▸ hd.1, hd.2⟩
    · have hrest := ih hd.2
      rw [setKey, if_neg hp]
      simp only [keysNodup, List.map_cons, List.nodup_cons]
      refine ⟨fun hmem => ?_, hrest⟩
      rcases mem_map_fst_setKey.mp hmem with hmem | hmem
      · exact hd.1 hmem
      · exact hp hmem

theorem keysNodup_dictUpdate {β : Type} {base upd : List (String × β)}
    (hb : keysNodup base) : keysNodup (dictUpdate base upd) := by
  induction upd generalizing base with
  | nil => exact hb
  | cons p rest ih => exact ih (keysNodup_setKey p.1 p.2 hb)

theorem keyLookup_dictUpdate {β : Type} (k : String)
    {base upd : List (String × β)} (hu : keysNodup upd) :
    keyLookup k (dictUpdate base upd) =
      (keyLookup k upd).orElse (fun _ => keyLookup k base) := by
  induction upd generalizing base with
  | nil => simp [dictUpdate, keyLookup, Option.orElse]
  | cons p rest ih =>
    simp only [keysNodup, List.map_cons, List.nodup_cons] at hu
    have step : dictUpdate base (p :: rest) = dictUpdate (setKey base p.1 p.2) rest := by
      simp [dictUpdate]
    rw [step, ih hu.2]
    by_cases hp : p.1 = k
    · subst hp
      have : keyLookup p.1 rest = none :=
        keyLookup_eq_none_of_not_mem hu.1
      simp [keyLookup, this, keyLookup_setKey_self, Option.orElse]
    · simp [keyLookup, fun hh : k = p.1 => hp hh.symm, hp,
        keyLookup_setKey_ne base p.2 (fun hh : k = p.1 => hp hh.symm)]

/-- Ordering of association-list entries by key, used to model the
`sort_keys=True` canonicalization of `json.dumps`. -/
def keyLE {β : Type} (a b : String × β) : Prop := a.1 ≤ b.1

instance {β : Type} : DecidableRel (@keyLE β) :=
  fun a b => inferInstanceAs (Decidable (a.1 ≤ b.1))

instance {β : Type} : IsTotal (String × β) keyLE :=
  ⟨fun a b => le_total a.1 b.1⟩

instance {β : Type} : IsTrans (String × β) keyLE :=
  ⟨fun _ _ _ h1 h2 => le_trans h1 h2⟩

/-- Model of `json.dumps(d, sort_keys=True)`: the entries of the dict in
ascending key order.  Two dicts produce the same JSON text exactly when they
produce the same sorted entry list, so the sorted list is used as the group
signature. -/
def canonKey {β : Type} (d : List (String × β)) : List (String × β) :=
  List.insertionSort keyLE d

theorem canonKey_perm {β : Type} (d : List (String × β)) :
    (canonKey d).Perm d :=
  List.perm_insertionSort keyLE d

theorem keysNodup_canonKey {β : Type} {d : List (String × β)}
    (hd : keysNodup d) : keysNodup (canonKey d) :=
  (((canonKey_perm d).map Prod.fst).nodup_iff).mpr hd

theorem keyLookup_eq_some_iff_mem {β : Type} {k : String} {v : β} :
    ∀ {d : List (String × β)}, keysNodup d →
      (keyLookup k d = some v ↔ (k, v) ∈ d) := by
  intro d
  induction d with
  | nil => intro _; simp [keyLookup]
  | cons p rest ih =>
    intro hd
    simp only [keysNodup, List.map_cons, List.nodup_cons] at hd
    simp only [List.mem_cons]
    by_cases hp : p.1 = k
    · rw [keyLookup, if_pos hp]
      constructor
      · intro h
        injection h with h
        exact Or.inl (Prod.ext hp h).symm
      · rintro (h | h)
        · rw [← h]
        · exfalso
          apply hd.1
          rw [hp]
          exact List.mem_map_of_mem Prod.fst h
    · rw [keyLookup, if_neg hp]
      rw [ih hd.2]
      constructor
      · exact fun h => Or.inr h
      · rintro (h | h)
        · exact absurd (congrArg Prod.fst h).symm hp
        · exact h

theorem keyLookup_mem_of_some {β : Type} {k : String} {v : β} :
    ∀ {d : List (String × β)}, keyLookup k d = some v → (k, v) ∈ d := by
  intro d
  induction d with
  | nil => intro h; exact absurd h (by simp [keyLookup])
  | cons p rest ih =>
    intro h
    simp only [List.mem_cons]
    by_cases hp : p.1 = k
    · rw [keyLookup, if_pos hp] at h
      injection h with h
      exact Or.inl (Prod.ext hp h).symm
    · rw [keyLookup, if_neg hp] at h
      exact Or.inr (ih h)

theorem keyLookup_exists_of_mem {β : Type} {k : String} :
    ∀ {d : List (String × β)}, k ∈ d.map Prod.fst →
      ∃ v, keyLookup k d = some v := by
  intro d
  induction d with
  | nil => intro h; simp at h
  | cons p rest ih =>
    intro h
    by_cases hp : p.1 = k
    · exact ⟨p.2, by rw [keyLookup, if_pos hp]⟩
    · simp only [List.map_cons, List.mem_cons] at h
      rcases h with h | h
      · exact absurd h.symm hp
      · rcases ih h with ⟨v, hv⟩
        exact ⟨v, by rw [keyLookup, if_neg hp]; exact hv⟩

theorem strictKeySorted_lookup_ext {β : Type} :
    ∀ (l1 l2 : List (String × β)),
      l1.Pairwise (fun a b => a.1 < b.1) →
      l2.Pairwise (fun a b => a.1 < b.1) →
      (∀ k, keyLookup k l1 = keyLookup k l2) → l1 = l2 := by
  intro l1
  induction l1 with
  | nil =>
    intro l2 _ _ hl
    cases l2 with
    | nil => rfl
    | cons q t2 => exact absurd (hl q.1) (by simp [keyLookup])
  | cons p t1 ih =>
    intro l2 h1 h2 hl
    have h1' := List.pairwise_cons.mp h1
    cases l2 with
    | nil => exact absurd (hl p.1) (by simp [keyLookup])
    | cons q t2 =>
      have h2' := List.pairwise_cons.mp h2
      have hpq : p.1 = q.1 := by
        rcases lt_trichotomy p.1 q.1 with hlt | heq | hgt
        · exfalso
          have hL : keyLookup p.1 (p :: t1) = some p.2 := by
            rw [keyLookup, if_pos rfl]
          have hR : keyLookup p.1 (q :: t2) = none := by
            apply keyLookup_eq_none_of_not_mem
            intro hmem
            simp only [List.map_cons, List.mem_cons] at hmem
            rcases hmem with hmem | hmem
            · rw [hmem] at hlt; exact lt_irrefl _ hlt
            · rcases List.mem_map.mp hmem with ⟨b, hb, hb1⟩
              have hqb := h2'.1 b hb
              rw [hb1] at hqb
              exact lt_irrefl _ (lt_trans hlt hqb)
          rw [hl p.1, hR] at hL
          exact Option.noConfusion hL
        · exact heq
        · exfalso
          have hR : keyLookup q.1 (q :: t2) = some q.2 := by
            rw [keyLookup, if_pos rfl]
          have hL : keyLookup q.1 (p :: t1) = none := by
            apply keyLookup_eq_none_of_not_mem
            intro hmem
            simp only [List.map_cons, List.mem_cons] at hmem
            rcases hmem with hmem | hmem
            · rw [hmem] at hgt; exact lt_irrefl _ hgt
            · rcases List.mem_map.mp hmem with ⟨b, hb, hb1⟩
              have hpb := h1'.1 b hb
              rw [hb1] at hpb
              exact lt_irrefl _ (lt_trans hgt hpb)
          rw [← hl q.1, hL] at hR
          exact Option.noConfusion hR
      have hv : p.2 = q.2 := by
        have hL : keyLookup p.1 (p :: t1) = some p.2 := by
          rw [keyLookup, if_pos rfl]
        have hR : keyLookup p.1 (q :: t2) = some q.2 := by
          rw [keyLookup, if_pos hpq.symm]
        rw [hl p.1, hR] at hL
        injection hL with hL
        exact hL.symm
      have htl : ∀ k, keyLookup k t1 = keyLookup k t2 := by
        intro k
        by_cases hk : p.1 = k
        · rw [keyLookup_eq_none_of_not_mem, keyLookup_eq_none_of_not_mem]
          · intro hmem
            rcases List.mem_map.mp hmem with ⟨b, hb, hb1⟩
            have := h2'.1 b hb
            rw [hb1, ← hk, ← hpq] at this
            exact lt_irrefl _ this
          · intro hmem
            rcases List.mem_map.mp hmem with ⟨b, hb, hb1⟩
            have := h1'.1 b hb
            rw [hb1, ← hk] at this
            exact lt_irrefl _ this
        · have h := hl k
          have hqk : ¬ q.1 = k := by rw [← hpq]; exact hk
          rw [keyLookup, if_neg hk, keyLookup, if_neg hqk] at h
          exact h
      rw [Prod.ext hpq hv, ih t2 h1'.2 h2'.2 htl]

theorem canonKey_pairwise_lt {β : Type} {d : List (String × β)}
    (hd : keysNodup d) :
    (canonKey d).Pairwise (fun a b => a.1 < b.1) := by
  have hs : (canonKey d).Pairwise keyLE := List.sorted_insertionSort keyLE d
  have hn : (canonKey d).Pairwise (fun a b => a.1 ≠ b.1) :=
    List.pairwise_map.mp (keysNodup_canonKey hd)
  exact (hs.and hn).imp (fun h => lt_of_le_of_ne h.1 h.2)

theorem keyLookup_canonKey {β : Type} {d : List (String × β)}
    (hd : keysNodup d) (k : String) :
    keyLookup k (canonKey d) = keyLookup k d := by
  rcases h : keyLookup k d with _ | v
  · apply keyLookup_eq_none_of_not_mem
    intro hmem
    have hmem' : k ∈ d.map Prod.fst :=
      (((canonKey_perm d).map Prod.fst).mem_iff).mp hmem
    rcases keyLookup_exists_of_mem hmem' with ⟨v, hv⟩
    rw [h] at hv
    exact Option.noConfusion hv
  · have hm : (k, v) ∈ d := keyLookup_mem_of_some h
    have hm' : (k, v) ∈ canonKey d := ((canonKey_perm d).mem_iff).mpr hm
    exact (keyLookup_eq_some_iff_mem (keysNodup_canonKey hd)).mpr hm'

theorem canonKey_eq_iff {β : Type} {d1 d2 : List (String × β)}
    (h1 : keysNodup d1) (h2 : keysNodup d2) :
    canonKey d1 = canonKey d2 ↔ ∀ k, keyLookup k d1 = keyLookup k d2 := by
  constructor
  · intro h k
    rw [← keyLookup_canonKey h1 k, ← keyLookup_canonKey h2 k, h]
  · intro h
    apply strictKeySorted_lookup_ext _ _ (canonKey_pairwise_lt h1)
      (canonKey_pairwise_lt h2)
    intro k
    rw [keyLookup_canonKey h1 k, keyLookup_canonKey h2 k]
    exact h k

/-- Python `k in d` for dicts. -/
def hasKey {β : Type} (k : String) (d : List (String × β)) : Bool :=
  d.any (fun p => decide (p.1 = k))

/-- A parameter/sample dict of `LocalModel` (string keys, scalar values). -/
abbrev PDict := List (String × PVal)

/-- The input shapes accepted by `LocalModel._prepare_and_group_inputs`:
a single string, a list of strings, a list of dicts, or a dict with a
`prompts` list plus shared kwargs.  Inputs of any other dynamic type (or a
dict without a well-formed `prompts` list, or a mixed list) raise in the
source before any grouping happens and are outside the claims considered
here. -/
inductive ModelInput where
  | single (s : String)
  | strList (xs : List String)
  | dictList (ds : List PDict)
  | promptsDict (prompts : List String) (shared : PDict)

/-- Step 3 of `_prepare_and_group_inputs`: normalize the input into a list of
sample dicts.  For a list of dicts, the source raises `ValueError` as soon as
one dict has no `prompt` key.  For the `prompts` dict form, each sample is
the Python dict literal `{'prompt': p, **shared_kwargs}`. -/
def normalizeInputs : ModelInput → Except PyErr (List PDict)
  | .single s => .ok [[("prompt", .vstr s)]]
  | .strList xs => .ok (xs.map (fun s => [("prompt", .vstr s)]))
  | .dictList ds =>
      if ds.all (fun d => hasKey "prompt" d) then .ok ds
      else .error (.valueError "every dict in a list-of-dicts input must contain a prompt key")
  | .promptsDict ps shared =>
      .ok (ps.map (fun p => dictUpdate [("prompt", .vstr p)] shared))

/-- The per-sample override kwargs: `{k: v for k, v in sample.items() if k != 'prompt'}`. -/
def overrideKwargs (sample : PDict) : PDict :=
  sample.filter (fun p => decide (p.1 ≠ "prompt"))

/-- The sample's effective generation parameters:
`current_kwargs = base_kwargs.copy(); current_kwargs.update(override_kwargs)`. -/
def effKwargs (base : PDict) (sample : PDict) : PDict :=
  dictUpdate base (overrideKwargs sample)

/-- The group signature `kwargs_key = json.dumps(current_kwargs, sort_keys=True)`,
modelled as the canonically sorted effective parameter dict. -/
def groupKey (base : PDict) (sample : PDict) : PDict :=
  canonKey (effKwargs base sample)

/-- Python `sample['prompt']`; every normalized sample carries this key. -/
def promptOf (sample : PDict) : PVal :=
  (keyLookup "prompt" sample).getD .vnone

/-- One step of `grouped_prompts[kwargs_key].append(entry)` on a
`defaultdict(list)` kept as an association list in insertion order. -/
def addToGroup {κ α : Type} [DecidableEq κ] (g : List (κ × List α)) (k : κ)
    (a : α) : List (κ × List α) :=
  if g.any (fun p => decide (p.1 = k)) then
    g.map (fun p => if p.1 = k then (p.1, p.2 ++ [a]) else p)
  else g ++ [(k, [a])]

/-- Step 4 of `_prepare_and_group_inputs`: fold the enumerated samples into
groups keyed by their serialized effective parameters. -/
def groupSamples (base : PDict) (samples : List PDict) :
    List (PDict × List (Nat × PVal)) :=
  samples.enum.foldl
    (fun g ia => addToGroup g (groupKey base ia.2) (ia.1, promptOf ia.2)) []

/-- Full embedding of `LocalModel._prepare_and_group_inputs`. -/
def prepareAndGroupInputs (base : PDict) (inputs : ModelInput) :
    Except PyErr (List (PDict × List (Nat × PVal))) :=
  match normalizeInputs inputs with
  | .error e => .error e
  | .ok samples => .ok (groupSamples base samples)

/-- All grouped entries, tagged with their group's key. -/
def flatKeyed {κ α : Type} (g : List (κ × List α)) : List (κ × α) :=
  (g.map (fun p => p.2.map (fun a => (p.1, a)))).flatten

theorem addToGroup_keys_nodup {κ α : Type} [DecidableEq κ] {k : κ} {a : α} :
    ∀ {g : List (κ × List α)}, (g.map Prod.fst).Nodup →
      ((addToGroup g k a).map Prod.fst).Nodup := by
  intro g hg
  unfold addToGroup
  by_cases h : g.any (fun p => decide (p.1 = k)) = true
  · rw [if_pos h]
    have : (g.map (fun p => if p.1 = k then (p.1, p.2 ++ [a]) else p)).map Prod.fst
        = g.map Prod.fst := by
      rw [List.map_map]
      apply List.map_congr_left
      intro p _
      by_cases hp : p.1 = k
      · simp [Function.comp, hp]
      · simp [Function.comp, hp]
    rw [this]
    exact hg
  · rw [if_neg h]
    rw [List.map_append]
    simp only [List.map_cons, List.map_nil]
    rw [List.nodup_append]
    refine ⟨hg, List.nodup_singleton k, ?_⟩
    intro x hx hxk
    rw [List.mem_singleton] at hxk
    rcases List.mem_map.mp hx with ⟨p, hp, hp1⟩
    apply h
    rw [List.any_eq_true]
    exact ⟨p, hp, by simp [hp1, hxk]⟩

theorem flatKeyed_cons {κ α : Type} (q : κ × List α) (g : List (κ × List α)) :
    flatKeyed (q :: g) = q.2.map (fun a => (q.1, a)) ++ flatKeyed g := by
  simp [flatKeyed]

theorem addToGroup_cons_ne {κ α : Type} [DecidableEq κ] {k : κ} {a : α}
    {q : κ × List α} {rest : List (κ × List α)} (hq : q.1 ≠ k) :
    addToGroup (q :: rest) k a = q :: addToGroup rest k a := by
  unfold addToGroup
  rw [List.any_cons]
  simp only [decide_eq_true_eq, hq, decide_False, Bool.false_or]
  by_cases h : rest.any (fun p => decide (p.1 = k)) = true
  · rw [if_pos h, if_pos h, List.map_cons, if_neg hq]
  · rw [if_neg h, if_neg h, List.cons_append]

theorem flatKeyed_addToGroup {κ α : Type} [DecidableEq κ] {k : κ} {a : α} :
    ∀ {g : List (κ × List α)}, (g.map Prod.fst).Nodup →
      (flatKeyed (addToGroup g k a)).Perm ((k, a) :: flatKeyed g) := by
  intro g
  induction g with
  | nil => intro _; simp [addToGroup, flatKeyed]
  | cons q rest ih =>
    intro hg
    simp only [List.map_cons, List.nodup_cons] at hg
    by_cases hq : q.1 = k
    · have hany : (q :: rest).any (fun p => decide (p.1 = k)) = true := by
        rw [List.any_cons]
        simp [hq]
      have hrest : rest.map (fun p => if p.1 = k then (p.1, p.2 ++ [a]) else p)
          = rest := by
        refine (List.map_congr_left ?_).trans (List.map_id rest)
        intro p hp
        have hpk : p.1 ≠ k := by
          intro hpk
          apply hg.1
          rw [← hq] at hpk
          exact hpk ▸ List.mem_map_of_mem Prod.fst hp
        simp [hpk]
      rw [addToGroup, if_pos hany, List.map_cons, if_pos hq, hrest]
      rw [flatKeyed_cons, flatKeyed_cons]
      simp only [List.map_append, List.map_cons, List.map_nil]
      rw [List.append_assoc]
      have hmid := @List.perm_middle _ (q.1, a)
        (q.2.map (fun x => (q.1, x))) (flatKeyed rest)
      rw [hq] at hmid ⊢
      exact hmid
    · rw [addToGroup_cons_ne hq, flatKeyed_cons, flatKeyed_cons]
      have h1 := (ih hg.2).append_left (q.2.map (fun x => (q.1, x)))
      refine h1.trans ?_
      exact List.perm_middle

theorem flatKeyed_foldl_addToGroup {κ α : Type} [DecidableEq κ] :
    ∀ (items : List (κ × α)) (g : List (κ × List α)),
      (g.map Prod.fst).Nodup →
      (flatKeyed (items.foldl (fun acc p => addToGroup acc p.1 p.2) g)).Perm
        (items ++ flatKeyed g) := by
  intro items
  induction items with
  | nil => intro g _; simp
  | cons it rest ih =>
    intro g hg
    rw [List.foldl_cons]
    have h1 := ih (addToGroup g it.1 it.2) (addToGroup_keys_nodup hg)
    refine h1.trans ?_
    have h2 := (@flatKeyed_addToGroup _ _ _ it.1 it.2 _ hg).append_left rest
    refine h2.trans ?_
    rw [List.cons_append] at *
    exact List.perm_middle

theorem flatKeyed_groupSamples (base : PDict) (samples : List PDict) :
    (flatKeyed (groupSamples base samples)).Perm
      (samples.enum.map
        (fun ia => (groupKey base ia.2, (ia.1, promptOf ia.2)))) := by
  unfold groupSamples
  have hfold :
      samples.enum.foldl
          (fun g ia => addToGroup g (groupKey base ia.2) (ia.1, promptOf ia.2))
          ([] : List (PDict × List (Nat × PVal)))
        = (samples.enum.map
            (fun ia => (groupKey base ia.2, (ia.1, promptOf ia.2)))).foldl
            (fun acc p => addToGroup acc p.1 p.2) [] := by
    rw [List.foldl_map]
  rw [hfold]
  have h := flatKeyed_foldl_addToGroup
    (samples.enum.map (fun ia => (groupKey base ia.2, (ia.1, promptOf ia.2))))
    [] (by simp)
  simpa [flatKeyed] using h

theorem mem_flatKeyed_groupSamples {base : PDict} {samples : List PDict}
    {k : PDict} {i : Nat} {p : PVal} :
    (k, (i, p)) ∈ flatKeyed (groupSamples base samples) ↔
      ∃ s, samples[i]? = some s ∧ k = groupKey base s ∧ p = promptOf s := by
  rw [(flatKeyed_groupSamples base samples).mem_iff]
  constructor
  · intro h
    rcases List.mem_map.mp h with ⟨ia, hia, heq⟩
    injection heq with h1 h2
    injection h2 with h2a h2b
    refine ⟨ia.2, ?_, h1.symm, h2b.symm⟩
    rw [← h2a]
    exact (List.mem_enum_iff_getElem?.mp hia)
  · rintro ⟨s, hs, hk, hp⟩
    apply List.mem_map.mpr
    refine ⟨(i, s), ?_, ?_⟩
    · exact List.mem_enum_iff_getElem?.mpr hs
    · rw [hk, hp]

theorem map_snd_flatKeyed {κ α : Type} (g : List (κ × List α)) :
    (flatKeyed g).map Prod.snd = (g.map Prod.snd).flatten := by
  simp only [flatKeyed, List.map_flatten, List.map_map]
  congr 1
  apply List.map_congr_left
  intro p _
  simp [Function.comp, List.map_map]

theorem keysNodup_overrideKwargs {s : PDict} (hs : keysNodup s) :
    keysNodup (overrideKwargs s) :=
  List.Nodup.sublist ((List.filter_sublist s).map Prod.fst) hs

/-- Claim C3: for every input accepted by the request grouper, each sample's
effective parameters equal the model-level defaults merged with the sample's
per-item overrides with the override winning on key collision; two samples
with equal effective parameter sets map to the same group signature
regardless of key insertion order, and samples with any differing parameter
map to different signatures; and the (original index, prompt) pairs across
all groups cover every input index exactly once. -/
theorem C3_grouping_correct (base : PDict) (samples : List PDict)
    (hb : keysNodup base) (hs : ∀ s ∈ samples, keysNodup s)
    (hacc : normalizeInputs (.dictList samples) = .ok samples) :
    (∀ s ∈ samples, ∀ k,
        keyLookup k (effKwargs base s) =
          (keyLookup k (overrideKwargs s)).orElse (fun _ => keyLookup k base))
    ∧ (∀ s1 ∈ samples, ∀ s2 ∈ samples,
        (groupKey base s1 = groupKey base s2 ↔
          ∀ k, keyLookup k (effKwargs base s1) = keyLookup k (effKwargs base s2)))
    ∧ ((((groupSamples base samples).map Prod.snd).flatten.map Prod.fst).Perm
        (List.range samples.length)) := by
  refine ⟨?_, ?_, ?_⟩
  · intro s hmem k
    exact keyLookup_dictUpdate k (keysNodup_overrideKwargs (hs s hmem))
  · intro s1 _ s2 _
    unfold groupKey effKwargs
    exact canonKey_eq_iff (keysNodup_dictUpdate hb) (keysNodup_dictUpdate hb)
  · rw [← map_snd_flatKeyed, List.map_map]
    have h := (flatKeyed_groupSamples base samples).map (Prod.fst ∘ Prod.snd)
    refine h.trans ?_
    rw [List.map_map]
    have heq : ((Prod.fst ∘ Prod.snd) ∘
          fun ia : Nat × PDict => (groupKey base ia.2, (ia.1, promptOf ia.2)))
        = Prod.fst := by
      funext ia
      rfl
    rw [heq, List.enum_map_fst]

/-- Claim C3 witness: the theorem applied to a concrete base and three
samples, two of which share effective parameters written in different key
orders. -/
theorem C3_witness :
    (∀ s ∈ [[("prompt", PVal.vstr "a"), ("max_new_tokens", PVal.vint 5)],
            [("max_new_tokens", PVal.vint 5), ("prompt", PVal.vstr "b")],
            [("prompt", PVal.vstr "c"), ("max_new_tokens", PVal.vint 9)]],
        ∀ k, keyLookup k (effKwargs [("temperature", PVal.vint 1)] s) =
          (keyLookup k (overrideKwargs s)).orElse
            (fun _ => keyLookup k [("temperature", PVal.vint 1)]))
    ∧ (∀ s1 ∈ [[("prompt", PVal.vstr "a"), ("max_new_tokens", PVal.vint 5)],
               [("max_new_tokens", PVal.vint 5), ("prompt", PVal.vstr "b")],
               [("prompt", PVal.vstr "c"), ("max_new_tokens", PVal.vint 9)]],
        ∀ s2 ∈ [[("prompt", PVal.vstr "a"), ("max_new_tokens", PVal.vint 5)],
                [("max_new_tokens", PVal.vint 5), ("prompt", PVal.vstr "b")],
                [("prompt", PVal.vstr "c"), ("max_new_tokens", PVal.vint 9)]],
        (groupKey [("temperature", PVal.vint 1)] s1 =
            groupKey [("temperature", PVal.vint 1)] s2 ↔
          ∀ k, keyLookup k (effKwargs [("temperature", PVal.vint 1)] s1) =
            keyLookup k (effKwargs [("temperature", PVal.vint 1)] s2)))
    ∧ ((((groupSamples [("temperature", PVal.vint 1)]
            [[("prompt", PVal.vstr "a"), ("max_new_tokens", PVal.vint 5)],
             [("max_new_tokens", PVal.vint 5), ("prompt", PVal.vstr "b")],
             [("prompt", PVal.vstr "c"), ("max_new_tokens", PVal.vint 9)]]).map
              Prod.snd).flatten.map Prod.fst).Perm (List.range 3)) :=
  C3_grouping_correct [("temperature", PVal.vint 1)]
    [[("prompt", PVal.vstr "a"), ("max_new_tokens", PVal.vint 5)],
     [("max_new_tokens", PVal.vint 5), ("prompt", PVal.vstr "b")],
     [("prompt", PVal.vstr "c"), ("max_new_tokens", PVal.vint 9)]]
    (by decide) (by decide) (by rfl)

/-- Claim C4 counterexample: a batch of two records in which only the first
lacks the `prompt` key.  The claim says the malformed record is isolated and
the remaining record is still grouped; instead `_prepare_and_group_inputs`
raises `ValueError` for the whole call, so no record of the batch is grouped
at all. -/
theorem C4_counterexample :
    prepareAndGroupInputs []
        (.dictList [[("x", PVal.vint 1)], [("prompt", PVal.vstr "hi")]])
      = .error (.valueError
          "every dict in a list-of-dicts input must contain a prompt key") := by
  rfl

/-- Claim C4 (amended): if any record of a list-of-dicts input supplies no
prompt field, the whole grouping call fails with a `ValueError` — the batch
fails and none of the records, well-formed or not, is grouped. -/
theorem C4_amended_missing_prompt_fails_batch (base : PDict) (ds : List PDict)
    (h : ∃ d ∈ ds, hasKey "prompt" d = false) :
    prepareAndGroupInputs base (.dictList ds) =
      .error (.valueError
        "every dict in a list-of-dicts input must contain a prompt key") := by
  rcases h with ⟨d, hd, hdp⟩
  have hall : ds.all (fun d => hasKey "prompt" d) = false := by
    rw [Bool.eq_false_iff]
    intro hall
    rw [List.all_eq_true] at hall
    rw [hall d hd] at hdp
    exact Bool.noConfusion hdp
  unfold prepareAndGroupInputs normalizeInputs
  simp [hall]

/-- Claim C4 witness for the amended statement. -/
theorem C4_amended_witness :
    prepareAndGroupInputs [("temperature", PVal.vint 1)]
        (.dictList [[("prompt", PVal.vstr "ok")], [("y", PVal.vint 2)]])
      = .error (.valueError
          "every dict in a list-of-dicts input must contain a prompt key") :=
  C4_amended_missing_prompt_fails_batch [("temperature", PVal.vint 1)]
    [[("prompt", PVal.vstr "ok")], [("y", PVal.vint 2)]]
    ⟨[("y", PVal.vint 2)], by decide, by decide⟩

/-- JSON-like Python values carried in the async dispatchers' payloads and
responses. -/
inductive JVal where
  | jstr (s : String)
  | jnum (n : Int)
  | jbool (b : Bool)
  | jnull
  | jarr (xs : List JVal)
  | jobj (fields : List (String × JVal))

/-- A JSON payload dict, as passed to `batch_post_requests_async` and
`dispatch_openai_requests`. -/
abbrev JDict := List (String × JVal)

/-- The expression evaluated inside the dispatchers' `except` handlers to
build a log message:
`payload.get('messages', [{}])[0].get('content', 'N/A')[:50]`.
Each step can itself raise: indexing `[0]` on an empty list raises
`IndexError`, `.get` on a non-dict raises `AttributeError`, and slicing a
non-sequence raises `TypeError`. -/
def errorContext (payload : JDict) : Except PyErr JVal :=
  match (keyLookup "messages" payload).getD (.jarr [.jobj []]) with
  | .jarr [] => .error (.indexError "list index out of range")
  | .jarr (m :: _) =>
      match m with
      | .jobj fs =>
          match (keyLookup "content" fs).getD (.jstr "N/A") with
          | .jstr s => .ok (.jstr (s.take 50))
          | .jarr xs => .ok (.jarr (xs.take 50))
          | _ => .error (.typeError "object is not subscriptable")
      | _ => .error (.attributeError "object has no attribute get")
  | .jstr s =>
      match s.data with
      | [] => .error (.indexError "string index out of range")
      | _ :: _ => .error (.attributeError "str object has no attribute get")
  | _ => .error (.typeError "object is not subscriptable")

/-- Outcome of one underlying send call (`session.post` + `raise_for_status`
+ `.json()`, or `client.chat.completions.create`): a response value, an
`aiohttp.ClientError`, or any other exception. -/
inductive SendOutcome where
  | ok (v : JVal)
  | clientError (msg : String)
  | exn (msg : String)

/-- The `fetch` coroutine of `batch_post_requests_async` for one payload:
on success return the response; on `aiohttp.ClientError` evaluate the
logging context expression (which may itself raise) and return
`{"error": str(e)}`; on any other exception log the payload (safe) and
return `{"error": str(e)}`. -/
def fetchB (payload : JDict) (outcome : SendOutcome) : Except PyErr JVal :=
  match outcome with
  | .ok v => .ok v
  | .clientError msg =>
      match errorContext payload with
      | .error e => .error e
      | .ok _ => .ok (.jobj [("error", .jstr msg)])
  | .exn msg => .ok (.jobj [("error", .jstr msg)])

/-- The `get_completion` coroutine of `dispatch_openai_requests` for one
request: its single `except Exception` handler evaluates the logging context
expression for every failure kind before returning `{"error": str(e)}`. -/
def getCompletion (reqKwargs : JDict) (outcome : SendOutcome) :
    Except PyErr JVal :=
  match outcome with
  | .ok v => .ok v
  | .clientError msg =>
      match errorContext reqKwargs with
      | .error e => .error e
      | .ok _ => .ok (.jobj [("error", .jstr msg)])
  | .exn msg =>
      match errorContext reqKwargs with
      | .error e => .error e
      | .ok _ => .ok (.jobj [("error", .jstr msg)])

/-- The result of task `i` of `batch_post_requests_async`. -/
def taskResultB (payloads : List JDict) (outcomes : Nat → SendOutcome)
    (i : Nat) : Except PyErr JVal :=
  match payloads[i]? with
  | some p => fetchB p (outcomes i)
  | none => .ok .jnull

/-- The result of task `i` of `dispatch_openai_requests`. -/
def taskResultO (requests : List JDict) (outcomes : Nat → SendOutcome)
    (i : Nat) : Except PyErr JVal :=
  match requests[i]? with
  | some r => getCompletion r (outcomes i)
  | none => .ok .jnull

/-- `tqdm.gather` driven by the event loop: tasks complete in the order
given by `order`; if some task raises, the first raising task's exception
propagates out of the gather, otherwise all `(index, value)` pairs are
collected. -/
def gatherInOrder (f : Nat → Except PyErr JVal) : List Nat →
    Except PyErr (List (Nat × JVal))
  | [] => .ok []
  | i :: rest =>
      match f i with
      | .error e => .error e
      | .ok v =>
          match gatherInOrder f rest with
          | .error e => .error e
          | .ok tl => .ok ((i, v) :: tl)

/-- The write-back loop `for index, result_data in ...: results[index] = r`
(also the loop placing generated texts of `LocalModel.process`). -/
def fillResults {ρ : Type} (acc : List (Option ρ)) (pairs : List (Nat × ρ)) :
    List (Option ρ) :=
  pairs.foldl (fun a p => a.set p.1 (some p.2)) acc

/-- `results = [None] * n` followed by the write-back loop. -/
def placeByIndex {ρ : Type} (n : Nat) (completed : List (Nat × ρ)) :
    List (Option ρ) :=
  fillResults (List.replicate n none) completed

/-- Embedding of `batch_post_requests_async`: the tasks complete in the
order `order` (a permutation of the indices chosen by the event loop), are
gathered, and are written back into a fresh `[None] * len(payloads)` list. -/
def batchPostRequestsAsync (payloads : List JDict)
    (outcomes : Nat → SendOutcome) (order : List Nat) :
    Except PyErr (List (Option JVal)) :=
  match gatherInOrder (taskResultB payloads outcomes) order with
  | .error e => .error e
  | .ok completed => .ok (placeByIndex payloads.length completed)

/-- Embedding of `dispatch_openai_requests`, identical shape. -/
def dispatchOpenaiRequests (requests : List JDict)
    (outcomes : Nat → SendOutcome) (order : List Nat) :
    Except PyErr (List (Option JVal)) :=
  match gatherInOrder (taskResultO requests outcomes) order with
  | .error e => .error e
  | .ok completed => .ok (placeByIndex requests.length completed)

/-- Embedding of the per-request loop of `ApiModel.process` for the OpenAI
provider: each request is sent; a response is appended on success and
`{"error": str(e)}` on any exception. -/
def apiProcessOpenai (requests : List JDict)
    (call : JDict → Except String JVal) : List JVal :=
  requests.foldl
    (fun acc r =>
      acc ++ [match call r with
              | .ok v => v
              | .error e => .jobj [("error", .jstr e)]]) []

theorem length_fillResults {ρ : Type} :
    ∀ (pairs : List (Nat × ρ)) (acc : List (Option ρ)),
      (fillResults acc pairs).length = acc.length := by
  intro pairs
  induction pairs with
  | nil => intro acc; rfl
  | cons p rest ih =>
    intro acc
    rw [fillResults, List.foldl_cons]
    have := ih (acc.set p.1 (some p.2))
    rw [fillResults] at this
    rw [this, List.length_set]

theorem getElem?_fillResults_not_mem {ρ : Type} :
    ∀ (pairs : List (Nat × ρ)) (acc : List (Option ρ)) (i : Nat),
      i ∉ pairs.map Prod.fst →
      (fillResults acc pairs)[i]? = acc[i]? := by
  intro pairs
  induction pairs with
  | nil => intro acc i _; rfl
  | cons p rest ih =>
    intro acc i hi
    simp only [List.map_cons, List.mem_cons] at hi
    push_neg at hi
    rw [fillResults, List.foldl_cons]
    have := ih (acc.set p.1 (some p.2)) i hi.2
    rw [fillResults] at this
    rw [this, List.getElem?_set_ne (fun hh => hi.1 hh.symm)]

theorem getElem?_fillResults_mem {ρ : Type} :
    ∀ (pairs : List (Nat × ρ)) (acc : List (Option ρ)) (i : Nat) (r : ρ),
      (pairs.map Prod.fst).Nodup → (i, r) ∈ pairs → i < acc.length →
      (fillResults acc pairs)[i]? = some (some r) := by
  intro pairs
  induction pairs with
  | nil => intro acc i r _ hmem _; exact absurd hmem (List.not_mem_nil _)
  | cons p rest ih =>
    intro acc i r hnd hmem hi
    simp only [List.map_cons, List.nodup_cons] at hnd
    rw [fillResults, List.foldl_cons]
    rcases List.mem_cons.mp hmem with heq | hmem'
    · have hp1 : p.1 = i := by rw [← heq]
      have hnot : i ∉ rest.map Prod.fst := by
        rw [← hp1]
        exact hnd.1
      have := getElem?_fillResults_not_mem rest (acc.set p.1 (some p.2)) i hnot
      rw [fillResults] at this
      rw [this, hp1, List.getElem?_set_self hi, ← heq]
    · have := ih (acc.set p.1 (some p.2)) i r hnd.2 hmem'
      rw [fillResults] at this
      rw [this]
      rw [List.length_set]
      exact hi

theorem gatherInOrder_ok (f : Nat → Except PyErr JVal) (w : Nat → JVal) :
    ∀ (order : List Nat), (∀ i ∈ order, f i = .ok (w i)) →
      gatherInOrder f order = .ok (order.map (fun i => (i, w i))) := by
  intro order
  induction order with
  | nil => intro _; rfl
  | cons i rest ih =>
    intro h
    rw [gatherInOrder, h i (List.mem_cons_self i rest),
      ih (fun j hj => h j (List.mem_cons_of_mem i hj))]
    rfl

theorem placeByIndex_order_preserved {ρ : Type} (n : Nat) (w : Nat → ρ)
    (order : List Nat) (horder : order.Perm (List.range n)) :
    (placeByIndex n (order.map (fun i => (i, w i)))).length = n ∧
      ∀ i, i < n →
        (placeByIndex n (order.map (fun i => (i, w i))))[i]? = some (some (w i)) := by
  have hmemiff : ∀ i, i ∈ order ↔ i < n := by
    intro i
    rw [horder.mem_iff, List.mem_range]
  have hnd : order.Nodup := (horder.nodup_iff).mpr (List.nodup_range n)
  have hfst : (order.map (fun i => (i, w i))).map Prod.fst = order := by
    rw [List.map_map]
    exact (List.map_congr_left (fun a _ => rfl)).trans (List.map_id order)
  constructor
  · rw [placeByIndex, length_fillResults, List.length_replicate]
  · intro i hi
    rw [placeByIndex]
    apply getElem?_fillResults_mem
    · rw [hfst]; exact hnd
    · exact List.mem_map_of_mem (fun i => (i, w i)) ((hmemiff i).mpr hi)
    · rw [List.length_replicate]; exact hi

/-- Claim C1: for every input list of N payloads, the concurrent dispatchers
`batch_post_requests_async` and `dispatch_openai_requests` return a list of
exactly N results in which the result at position i is the one produced for
payload i, regardless of the order in which the concurrent calls complete
(the concurrency limit only constrains which completion orders the event
loop can realize, so quantifying over all completion orders covers every
positive limit).  The hypothesis `hw` says each per-item coroutine produced
a result value (success or captured error) rather than raising. -/
theorem C1_dispatch_order_preserved (payloads requests : List JDict)
    (outcomesB outcomesO : Nat → SendOutcome) (orderB orderO : List Nat)
    (wB wO : Nat → JVal)
    (hordB : orderB.Perm (List.range payloads.length))
    (hordO : orderO.Perm (List.range requests.length))
    (hwB : ∀ i, i < payloads.length →
      taskResultB payloads outcomesB i = .ok (wB i))
    (hwO : ∀ i, i < requests.length →
      taskResultO requests outcomesO i = .ok (wO i)) :
    (∃ res, batchPostRequestsAsync payloads outcomesB orderB = .ok res ∧
      res.length = payloads.length ∧
      ∀ i, i < payloads.length → res[i]? = some (some (wB i)))
    ∧ (∃ res, dispatchOpenaiRequests requests outcomesO orderO = .ok res ∧
      res.length = requests.length ∧
      ∀ i, i < requests.length → res[i]? = some (some (wO i))) := by
  constructor
  · have hmem : ∀ i ∈ orderB, taskResultB payloads outcomesB i = .ok (wB i) := by
      intro i hi
      exact hwB i (List.mem_range.mp (hordB.mem_iff.mp hi))
    have hg := gatherInOrder_ok (taskResultB payloads outcomesB) wB orderB hmem
    have hplace := placeByIndex_order_preserved payloads.length wB orderB hordB
    refine ⟨placeByIndex payloads.length (orderB.map (fun i => (i, wB i))), ?_, hplace.1, hplace.2⟩
    rw [batchPostRequestsAsync, hg]
  · have hmem : ∀ i ∈ orderO, taskResultO requests outcomesO i = .ok (wO i) := by
      intro i hi
      exact hwO i (List.mem_range.mp (hordO.mem_iff.mp hi))
    have hg := gatherInOrder_ok (taskResultO requests outcomesO) wO orderO hmem
    have hplace := placeByIndex_order_preserved requests.length wO orderO hordO
    refine ⟨placeByIndex requests.length (orderO.map (fun i => (i, wO i))), ?_, hplace.1, hplace.2⟩
    rw [dispatchOpenaiRequests, hg]

/-- Concrete payloads for exercising the dispatchers: the first carries a
well-formed `messages` list, the second is empty. -/
def c1Payloads : List JDict :=
  [[("messages", JVal.jarr [JVal.jobj [("content", JVal.jstr "hi")]])], []]

/-- Concrete send outcomes: item 0 succeeds, item 1 raises a generic
exception that the handler captures. -/
def c1Outcomes : Nat → SendOutcome :=
  fun i => if i = 0 then .ok (.jstr "r0") else .exn "boom"

/-- The per-item results the dispatchers should produce for `c1Outcomes`. -/
def c1W : Nat → JVal :=
  fun i => if i = 0 then .jstr "r0" else .jobj [("error", .jstr "boom")]

/-- Claim C1 witness: two payloads completing in reversed order, the second
one failing with a captured error, dispatched through both dispatchers. -/
theorem C1_witness :
    (∃ res, batchPostRequestsAsync c1Payloads c1Outcomes [1, 0] = .ok res ∧
      res.length = c1Payloads.length ∧
      ∀ i, i < c1Payloads.length → res[i]? = some (some (c1W i)))
    ∧ (∃ res, dispatchOpenaiRequests c1Payloads c1Outcomes [1, 0] = .ok res ∧
      res.length = c1Payloads.length ∧
      ∀ i, i < c1Payloads.length → res[i]? = some (some (c1W i))) :=
  C1_dispatch_order_preserved c1Payloads c1Payloads c1Outcomes c1Outcomes
    [1, 0] [1, 0] c1W c1W
    (by decide) (by decide)
    (by intro i hi
        have h2 : i < 2 := hi
        interval_cases i <;> rfl)
    (by intro i hi
        have h2 : i < 2 := hi
        interval_cases i <;> rfl)

/-- Claim C2 (code bug): for the payload `{"messages": []}` whose send
raises an `aiohttp.ClientError`, the except handler's own logging expression
`payload.get('messages', [{}])[0]` raises `IndexError`, which escapes
`fetch` and propagates out of `batch_post_requests_async`: the failure is
not captured as `{"error": ...}` at position 0 — the dispatch call raises
instead, and no result list is returned at all. -/
theorem C2_error_handler_raises :
    batchPostRequestsAsync [[("messages", JVal.jarr [])]]
        (fun _ => .clientError "Cannot connect to host") [0]
      = .error (.indexError "list index out of range") := by
  rfl

/-- The batching loop `for i in range(0, len(prompts), batch_size)`, with
an explicit iteration bound: each pass consumes at least the head element,
so the list's length bounds the number of passes. -/
def chunkedFuel {α : Type} (bs : Nat) : Nat → List α → List (List α)
  | 0, _ => []
  | _ + 1, [] => []
  | fuel + 1, x :: xs =>
      (x :: xs.take (bs - 1)) :: chunkedFuel bs fuel (xs.drop (bs - 1))

/-- Split the prompt list into consecutive chunks of `bs` (with `bs ≥ 1`),
as `prompts[i:i + batch_size]` does. -/
def chunked {α : Type} (bs : Nat) (l : List α) : List (List α) :=
  chunkedFuel bs l.length l

/-- One inference batch: the per-prompt text generation of
`model.generate` + decode, which may raise (e.g. on resource exhaustion). -/
def genChunk (gen : PVal → PDict → Except PyErr String) (kwargs : PDict) :
    List PVal → Except PyErr (List String)
  | [] => .ok []
  | p :: rest =>
      match gen p kwargs with
      | .error e => .error e
      | .ok t =>
          match genChunk gen kwargs rest with
          | .error e => .error e
          | .ok ts => .ok (t :: ts)

/-- The `all_generated_texts.extend(batch_texts)` accumulation over all
chunks of `_run_inference_batch`. -/
def runChunks (gen : PVal → PDict → Except PyErr String) (kwargs : PDict) :
    List (List PVal) → Except PyErr (List String)
  | [] => .ok []
  | c :: cs =>
      match genChunk gen kwargs c with
      | .error e => .error e
      | .ok ts =>
          match runChunks gen kwargs cs with
          | .error e => .error e
          | .ok rest => .ok (ts ++ rest)

/-- Embedding of `LocalModel._run_inference_batch`: `range(0, n, 0)` raises
`ValueError`, otherwise generation runs chunk by chunk with no per-item
error capture — the first exception aborts the whole call. -/
def runInferenceBatch (bs : Nat) (gen : PVal → PDict → Except PyErr String)
    (kwargs : PDict) (prompts : List PVal) : Except PyErr (List String) :=
  if bs = 0 then .error (.valueError "range() arg 3 must not be zero")
  else runChunks gen kwargs (chunked bs prompts)

/-- The loop of `LocalModel.process` over the groups: run inference for one
group, place its texts at their original indices, continue with the next
group.  `json.loads(kwargs_key)` recovers exactly the canonical parameter
dict used as the group key, so the key itself is passed to generation. -/
def processGroups (bs : Nat) (gen : PVal → PDict → Except PyErr String)
    (acc : List (Option String)) :
    List (PDict × List (Nat × PVal)) → Except PyErr (List (Option String))
  | [] => .ok acc
  | (k, grp) :: rest =>
      match runInferenceBatch bs gen k (grp.map Prod.snd) with
      | .error e => .error e
      | .ok texts =>
          processGroups bs gen
            (fillResults acc ((grp.map Prod.fst).zip texts)) rest

/-- Embedding of `LocalModel.process`: group the inputs, allocate
`results = [None] * total_samples`, and process the groups in order. -/
def localProcess (base : PDict) (bs : Nat)
    (gen : PVal → PDict → Except PyErr String) (inputs : ModelInput) :
    Except PyErr (List (Option String)) :=
  match prepareAndGroupInputs base inputs with
  | .error e => .error e
  | .ok groups =>
      processGroups bs gen
        (List.replicate ((groups.map (fun g => g.2.length)).sum) none) groups

theorem flatten_chunkedFuel {α : Type} (bs : Nat) :
    ∀ (fuel : Nat) (l : List α), l.length ≤ fuel →
      (chunkedFuel bs fuel l).flatten = l := by
  intro fuel
  induction fuel with
  | zero =>
    intro l hl
    cases l with
    | nil => rfl
    | cons x xs => simp at hl
  | succ n ih =>
    intro l _hl
    cases l with
    | nil => rfl
    | cons x xs =>
      rw [chunkedFuel]
      simp only [List.flatten_cons]
      rw [ih (xs.drop (bs - 1)) ?_]
      · rw [List.cons_append, List.take_append_drop]
      · simp only [List.length_drop]
        simp only [List.length_cons] at _hl
        omega

theorem flatten_chunked {α : Type} (bs : Nat) (l : List α) :
    (chunked bs l).flatten = l :=
  flatten_chunkedFuel bs l.length l le_rfl

theorem genChunk_ok (g : PVal → PDict → String) (kwargs : PDict) :
    ∀ (chunk : List PVal),
      genChunk (fun p k => .ok (g p k)) kwargs chunk =
        .ok (chunk.map (fun p => g p kwargs)) := by
  intro chunk
  induction chunk with
  | nil => rfl
  | cons p rest ih =>
    rw [genChunk, ih]
    rfl

theorem runChunks_ok (g : PVal → PDict → String) (kwargs : PDict) :
    ∀ (cs : List (List PVal)),
      runChunks (fun p k => .ok (g p k)) kwargs cs =
        .ok ((cs.map (fun c => c.map (fun p => g p kwargs))).flatten) := by
  intro cs
  induction cs with
  | nil => rfl
  | cons c rest ih =>
    rw [runChunks, genChunk_ok, ih]
    rfl

theorem runInferenceBatch_ok (bs : Nat) (hbs : bs ≠ 0)
    (g : PVal → PDict → String) (kwargs : PDict) (prompts : List PVal) :
    runInferenceBatch bs (fun p k => .ok (g p k)) kwargs prompts =
      .ok (prompts.map (fun p => g p kwargs)) := by
  rw [runInferenceBatch, if_neg hbs, runChunks_ok]
  congr 1
  rw [← List.map_flatten, flatten_chunked]

theorem fillResults_append {ρ : Type} (acc : List (Option ρ))
    (a b : List (Nat × ρ)) :
    fillResults acc (a ++ b) = fillResults (fillResults acc a) b := by
  simp [fillResults, List.foldl_append]

theorem processGroups_ok (g : PVal → PDict → String) (bs : Nat)
    (hbs : bs ≠ 0) :
    ∀ (groups : List (PDict × List (Nat × PVal))) (acc : List (Option String)),
      processGroups bs (fun p k => .ok (g p k)) acc groups =
        .ok (fillResults acc
          ((flatKeyed groups).map (fun e => (e.2.1, g e.2.2 e.1)))) := by
  intro groups
  induction groups with
  | nil => intro acc; simp [processGroups, flatKeyed, fillResults]
  | cons q rest ih =>
    intro acc
    obtain ⟨k, grp⟩ := q
    rw [processGroups, runInferenceBatch_ok bs hbs]
    show processGroups bs (fun p k => .ok (g p k))
        (fillResults acc
          ((grp.map Prod.fst).zip ((grp.map Prod.snd).map (fun p => g p k))))
        rest = _
    have hzip : (grp.map Prod.fst).zip ((grp.map Prod.snd).map (fun p => g p k))
        = grp.map (fun e => (e.1, g e.2 k)) := by
      rw [List.map_map]
      exact List.zip_map' Prod.fst (fun e => g e.2 k) grp
    rw [hzip, ih]
    congr 1
    rw [flatKeyed_cons]
    simp only [List.map_append, List.map_map]
    rw [fillResults_append]
    congr 1

theorem sum_group_lengths {κ α : Type} (groups : List (κ × List α)) :
    (groups.map (fun g => g.2.length)).sum = (flatKeyed groups).length := by
  simp only [flatKeyed, List.length_flatten, List.map_map]
  congr 1
  apply List.map_congr_left
  intro p _
  simp [Function.comp]

theorem foldl_append_singleton_eq_map {α ρ : Type} (f : α → ρ) :
    ∀ (l : List α) (acc : List ρ),
      l.foldl (fun acc r => acc ++ [f r]) acc = acc ++ l.map f := by
  intro l
  induction l with
  | nil => intro acc; simp
  | cons x xs ih =>
    intro acc
    rw [List.foldl_cons, ih, List.map_cons]
    simp

theorem apiProcessOpenai_eq_map (reqs : List JDict)
    (call : JDict → Except String JVal) :
    apiProcessOpenai reqs call =
      reqs.map (fun r =>
        match call r with
        | .ok v => v
        | .error e => .jobj [("error", .jstr e)]) := by
  rw [apiProcessOpenai, foldl_append_singleton_eq_map]
  simp

/-- Claim C7 counterexample: `LocalModel.process` on a single prompt whose
generation fails raises the exception out of the call (no result list, no
per-item error value), contradicting the claim that per-item failures are
returned as error values and never raised across this boundary. -/
theorem C7_counterexample :
    localProcess [] 1 (fun _ _ => .error (.runtimeError "CUDA out of memory"))
        (.strList ["bad"])
      = .error (.runtimeError "CUDA out of memory") := by
  rfl

/-- Claim C7 (amended): `ApiModel.process` with the OpenAI provider returns,
for any request list, a list of the same length and order in which a failed
request yields the value `{"error": str(e)}` at its position — failures are
values, never exceptions, at that boundary.  `LocalModel.process` preserves
length and order, placing each generated text at its sample's original
index, whenever every generation succeeds; but a failing generation raises
out of the whole call instead of yielding an error value (see the
counterexample), so the failures-as-values half holds only for the API
model. -/
theorem C7_amended_process_length_order
    (reqs : List JDict) (call : JDict → Except String JVal)
    (base : PDict) (bs : Nat) (g : PVal → PDict → String)
    (samples : List PDict) (hbs : bs ≠ 0)
    (hp : ∀ d ∈ samples, hasKey "prompt" d = true) :
    ((apiProcessOpenai reqs call).length = reqs.length
      ∧ ∀ (i : Nat) (r : JDict), reqs[i]? = some r →
          (apiProcessOpenai reqs call)[i]? =
            some (match call r with
                  | .ok v => v
                  | .error e => .jobj [("error", .jstr e)]))
    ∧ (∃ res,
        localProcess base bs (fun p k => .ok (g p k)) (.dictList samples)
            = .ok res
          ∧ res.length = samples.length
          ∧ ∀ (i : Nat) (s : PDict), samples[i]? = some s →
              res[i]? = some (some (g (promptOf s) (groupKey base s)))) := by
  constructor
  · rw [apiProcessOpenai_eq_map]
    constructor
    · rw [List.length_map]
    · intro i r hr
      rw [List.getElem?_map, hr]
      rfl
  · have hnorm : normalizeInputs (.dictList samples) = .ok samples := by
      rw [normalizeInputs, if_pos]
      rw [List.all_eq_true]
      exact hp
    have hprep : prepareAndGroupInputs base (.dictList samples)
        = .ok (groupSamples base samples) := by
      rw [prepareAndGroupInputs, hnorm]
    have hflatperm := flatKeyed_groupSamples base samples
    have hcomp : ((flatKeyed (groupSamples base samples)).map
          (fun e => (e.2.1, g e.2.2 e.1))).Perm
        (samples.enum.map
          (fun ia => (ia.1, g (promptOf ia.2) (groupKey base ia.2)))) := by
      have h1 := hflatperm.map (fun e => (e.2.1, g e.2.2 e.1))
      have h2 : (samples.enum.map
            (fun ia => (groupKey base ia.2, (ia.1, promptOf ia.2)))).map
              (fun e => (e.2.1, g e.2.2 e.1))
          = samples.enum.map
              (fun ia => (ia.1, g (promptOf ia.2) (groupKey base ia.2))) := by
        rw [List.map_map]
        rfl
      exact h2 ▸ h1
    have htotal : ((groupSamples base samples).map (fun g => g.2.length)).sum
        = samples.length := by
      rw [sum_group_lengths, hflatperm.length_eq, List.length_map,
        List.enum_length]
    have hfst : ((((flatKeyed (groupSamples base samples)).map
          (fun e => (e.2.1, g e.2.2 e.1))).map Prod.fst)).Perm
        (List.range samples.length) := by
      have h1 := hcomp.map Prod.fst
      have h2 : (samples.enum.map
            (fun ia => (ia.1, g (promptOf ia.2) (groupKey base ia.2)))).map
              Prod.fst
          = List.range samples.length := by
        rw [List.map_map]
        have h3 : (Prod.fst ∘ fun ia : Nat × PDict =>
              (ia.1, g (promptOf ia.2) (groupKey base ia.2)))
            = Prod.fst := by
          funext ia
          rfl
        rw [h3, List.enum_map_fst]
      exact h2 ▸ h1
    have hnodup : ((((flatKeyed (groupSamples base samples)).map
          (fun e => (e.2.1, g e.2.2 e.1))).map Prod.fst)).Nodup :=
      (hfst.nodup_iff).mpr (List.nodup_range _)
    refine ⟨fillResults
        (List.replicate
          (((groupSamples base samples).map (fun g => g.2.length)).sum) none)
        ((flatKeyed (groupSamples base samples)).map
          (fun e => (e.2.1, g e.2.2 e.1))), ?_, ?_, ?_⟩
    · unfold localProcess
      rw [hprep]
      exact processGroups_ok g bs hbs (groupSamples base samples) _
    · rw [length_fillResults, List.length_replicate]
      exact htotal
    · intro i s hs
      have hi : i < samples.length := by
        rcases List.getElem?_eq_some.mp hs with ⟨h, _⟩
        exact h
      have hmem1 : (i, s) ∈ samples.enum :=
        List.mem_enum_iff_getElem?.mpr hs
      have hmem2 : (i, g (promptOf s) (groupKey base s)) ∈
          samples.enum.map
            (fun ia => (ia.1, g (promptOf ia.2) (groupKey base ia.2))) :=
        List.mem_map_of_mem _ hmem1
      have hmem3 := hcomp.mem_iff.mpr hmem2
      apply getElem?_fillResults_mem _ _ i _ hnodup hmem3
      rw [List.length_replicate, htotal]
      exact hi

/-- Concrete requests for the API-model half of the C7 witness. -/
def c7Reqs : List JDict := [[("a", JVal.jnum 1)]]

/-- A call that always fails, so the error must appear as a value. -/
def c7Call : JDict → Except String JVal := fun _ => .error "boom"

/-- Concrete samples for the local-model half of the C7 witness, in two
different parameter groups. -/
def c7Samples : List PDict :=
  [[("prompt", PVal.vstr "x")],
   [("prompt", PVal.vstr "y"), ("temperature", PVal.vint 2)]]

/-- A total generation function for the C7 witness. -/
def c7Gen : PVal → PDict → String := fun _ _ => "text"

/-- Claim C7 witness: the amended theorem at one failing API request and two
local-model samples split over two parameter groups. -/
theorem C7_witness :
    ((apiProcessOpenai c7Reqs c7Call).length = c7Reqs.length
      ∧ ∀ (i : Nat) (r : JDict), c7Reqs[i]? = some r →
          (apiProcessOpenai c7Reqs c7Call)[i]? =
            some (match c7Call r with
                  | .ok v => v
                  | .error e => .jobj [("error", .jstr e)]))
    ∧ (∃ res,
        localProcess [] 1 (fun p k => .ok (c7Gen p k)) (.dictList c7Samples)
            = .ok res
          ∧ res.length = c7Samples.length
          ∧ ∀ (i : Nat) (s : PDict), c7Samples[i]? = some s →
              res[i]? = some (some (c7Gen (promptOf s) (groupKey [] s)))) :=
  C7_amended_process_length_order c7Reqs c7Call [] 1 c7Gen c7Samples
    (by decide) (by decide)

/-- The `loader_names` value of a task configuration: absent (`None`), a
single string, a list of strings, or a value of any other type. -/
inductive LoaderNames where
  | absent
  | str (s : String)
  | strs (xs : List String)
  | other

/-- The loop of `_initialize_datas`: look each name up in order (raising
`ValueError` at the first missing one), remember the most recent loader, and
finally return `list(data_loader)` — the records of the LAST named loader
only; the `all_data` accumulation the loop builds is discarded by the
source's `return list(data_loader)`.  With an empty name list the variable
`data_loader` is never bound and Python raises `UnboundLocalError` (a
`NameError` subclass). -/
def loadLoop {ρ : Type} (dataLoaders : List (String × List ρ)) :
    List String → Option (List ρ) → Except PyErr (List ρ)
  | [], none => .error (.nameError "data_loader")
  | [], some d => .ok d
  | n :: rest, _ =>
      match keyLookup n dataLoaders with
      | none => .error (.valueError ("Could not find " ++ n ++ " in data_loaders"))
      | some d => loadLoop dataLoaders rest (some d)

/-- Embedding of `SynchronousPipeline._initialize_datas`. -/
def initDatas {ρ : Type} (dataLoaders : List (String × List ρ))
    (ln : LoaderNames) : Except PyErr (List ρ) :=
  match ln with
  | .absent =>
      .error (.valueError "Task should define data_loader name loader_names")
  | .other => .error (.valueError "Invalid loader_names type, should be list")
  | .str s => loadLoop dataLoaders [s] none
  | .strs xs => loadLoop dataLoaders xs none

theorem loadLoop_last {ρ : Type} (loaders : List (String × List ρ)) :
    ∀ (names : List String) (acc : Option (List ρ)) (l : String) (d : List ρ),
      names.getLast? = some l →
      (∀ n ∈ names, (keyLookup n loaders).isSome = true) →
      keyLookup l loaders = some d →
      loadLoop loaders names acc = .ok d := by
  intro names
  induction names with
  | nil => intro acc l d h _ _; exact absurd h (by simp)
  | cons n rest ih =>
    intro acc l d hlast hall hl
    rcases Option.isSome_iff_exists.mp (hall n (List.mem_cons_self n rest))
      with ⟨dn, hdn⟩
    rw [loadLoop, hdn]
    show loadLoop loaders rest (some dn) = .ok d
    cases rest with
    | nil =>
      have hnl : n = l := by simpa using hlast
      rw [hnl] at hdn
      rw [hdn] at hl
      injection hl with hl
      rw [loadLoop, ← hl]
    | cons m rest2 =>
      have hlast2 : (m :: rest2).getLast? = some l := by
        rwa [List.getLast?_cons_cons] at hlast
      exact ih (some dn) l d hlast2
        (fun x hx => hall x (List.mem_cons_of_mem n hx)) hl

theorem loadLoop_missing {ρ : Type} (loaders : List (String × List ρ)) :
    ∀ (names : List String) (acc : Option (List ρ)),
      (∃ n ∈ names, keyLookup n loaders = none) →
      ∃ m, loadLoop loaders names acc = .error (.valueError m) := by
  intro names
  induction names with
  | nil =>
    rintro acc ⟨n, hn, _⟩
    exact absurd hn (List.not_mem_nil n)
  | cons n rest ih =>
    rintro acc ⟨x, hx, hxl⟩
    rcases h : keyLookup n loaders with _ | dn
    · exact ⟨"Could not find " ++ n ++ " in data_loaders", by rw [loadLoop, h]⟩
    · rcases List.mem_cons.mp hx with heq | hx2
      · rw [heq] at hxl
        rw [hxl] at h
        exact Option.noConfusion h
      · rcases ih (some dn) ⟨x, hx2, hxl⟩ with ⟨m, hm⟩
        refine ⟨m, ?_⟩
        rw [loadLoop, h]
        exact hm

/-- Claim C10: when `loader_names` lists several loaders, `_initialize_datas`
looks every named loader up but returns only the records of the LAST named
loader (the records read from the earlier loaders are silently discarded);
it raises `ValueError` when `loader_names` is absent, is neither a string
nor a list, or names a loader missing from the `data_loaders` mapping. -/
theorem C10_init_datas_last_loader {ρ : Type}
    (loaders : List (String × List ρ)) (names : List String) (l : String)
    (d : List ρ) (hlast : names.getLast? = some l)
    (hall : ∀ n ∈ names, (keyLookup n loaders).isSome = true)
    (hl : keyLookup l loaders = some d) :
    initDatas loaders (.strs names) = .ok d
    ∧ (∃ m1, initDatas loaders .absent = .error (.valueError m1))
    ∧ (∃ m2, initDatas loaders .other = .error (.valueError m2))
    ∧ (∀ names2 : List String, (∃ n ∈ names2, keyLookup n loaders = none) →
        ∃ m3, initDatas loaders (.strs names2) = .error (.valueError m3)) := by
  refine ⟨?_, ⟨_, rfl⟩, ⟨_, rfl⟩, ?_⟩
  · exact loadLoop_last loaders names none l d hlast hall hl
  · intro names2 h
    exact loadLoop_missing loaders names2 none h

/-- Claim C10 witness: two loaders, both read, only the records of the
second (last) returned; plus the three error shapes. -/
theorem C10_witness :
    initDatas [("a", [1, 2]), ("b", [3])] (.strs ["a", "b"]) = .ok [3]
    ∧ (∃ m1, initDatas [("a", [1, 2]), ("b", [3])] .absent
        = .error (.valueError m1))
    ∧ (∃ m2, initDatas [("a", [1, 2]), ("b", [3])] .other
        = .error (.valueError m2))
    ∧ (∀ names2 : List String,
        (∃ n ∈ names2, keyLookup n [("a", [1, 2]), ("b", [3])] = none) →
        ∃ m3, initDatas [("a", [1, 2]), ("b", [3])] (.strs names2)
          = .error (.valueError m3)) :=
  C10_init_datas_last_loader [("a", [1, 2]), ("b", [3])] ["a", "b"] "b" [3]
    (by rfl) (by decide) (by rfl)

/-- A task of the synchronous pipeline as the `run` loop sees it: its
`loader_names`, the models initialized for it (`models_to_clean`), its
`process_batch`, and its optional `finalize` hook; `process_batch` and
`finalize` may raise. -/
structure PTask (ρ μ : Type) where
  loaderNames : LoaderNames
  models : List μ
  processBatch : List ρ → Except PyErr (List ρ)
  finalize : Option (Except PyErr Unit)

/-- One iteration of the `for task_conf in self.task_configs` loop of
`SynchronousPipeline.run`, paired with the number of model release (`del`
plus cache-empty) operations the iteration performs.  The body has no
try/finally: the cleanup block runs only after `process_batch` and
`finalize` return normally, so when either raises the exception propagates
with zero releases performed. -/
def runTaskStep {ρ μ : Type} (loaders : List (String × List ρ))
    (t : PTask ρ μ) : Except PyErr (List ρ) × Nat :=
  match initDatas loaders t.loaderNames with
  | .error e => (.error e, 0)
  | .ok d =>
      match t.processBatch d with
      | .error e => (.error e, 0)
      | .ok d2 =>
          match t.finalize with
          | some (.error e) => (.error e, 0)
          | _ => (.ok d2, t.models.length)

/-- The loop of `SynchronousPipeline.run`: each iteration REPLACES
`all_data` with a fresh load from the task's own loaders — the previous
task's output is discarded — and after the loop the last `all_data` is
returned; with an empty task list the name `all_data` is unbound and Python
raises `NameError`. -/
def runPipelineGo {ρ μ : Type} (loaders : List (String × List ρ)) :
    List (PTask ρ μ) → Option (List ρ) → Except PyErr (List ρ)
  | [], none => .error (.nameError "all_data")
  | [], some d => .ok d
  | t :: rest, _ =>
      match (runTaskStep loaders t).1 with
      | .error e => .error e
      | .ok d2 => runPipelineGo loaders rest (some d2)

/-- Embedding of `SynchronousPipeline.run`. -/
def runPipeline {ρ μ : Type} (loaders : List (String × List ρ))
    (tasks : List (PTask ρ μ)) : Except PyErr (List ρ) :=
  runPipelineGo loaders tasks none

/-- Concrete loaders and a failing stage for the C5 counterexample. -/
def c5Loaders : List (String × List Nat) := [("d", [1])]

/-- A stage with one initialized model whose `process_batch` raises. -/
def c5Task : PTask Nat Unit :=
  { loaderNames := .strs ["d"]
    models := [()]
    processBatch := fun _ => .error (.runtimeError "stage failed")
    finalize := none }

/-- Claim C5 counterexample: when `process_batch` raises, the pipeline's
loop body performs zero model releases while one model was initialized, so
the claimed release-on-every-exit-path invariant fails on the error path. -/
theorem C5_counterexample :
    (runTaskStep c5Loaders c5Task).1 = .error (.runtimeError "stage failed")
    ∧ (runTaskStep c5Loaders c5Task).2 ≠ c5Task.models.length := by
  constructor
  · rfl
  · decide

/-- Claim C5 (amended): within one stage iteration the model cleanup runs
exactly once per initialized model when data loading, `process_batch` and
`finalize` all return normally, and zero times — the exception propagating
with no release performed — when any of them raises. -/
theorem C5_amended_release_only_on_success {ρ μ : Type}
    (loaders : List (String × List ρ)) (t : PTask ρ μ) :
    (runTaskStep loaders t).2 =
      if (runTaskStep loaders t).1.isOk then t.models.length else 0 := by
  rcases hinit : initDatas loaders t.loaderNames with e | d
  · simp [runTaskStep, Except.isOk, Except.toBool, hinit]
  · rcases hpb : t.processBatch d with e | d2
    · simp [runTaskStep, Except.isOk, Except.toBool, hinit, hpb]
    · rcases hf : t.finalize with _ | f
      · simp [runTaskStep, Except.isOk, Except.toBool, hinit, hpb, hf]
      · rcases f with e | u
        · simp [runTaskStep, Except.isOk, Except.toBool, hinit, hpb, hf]
        · simp [runTaskStep, Except.isOk, Except.toBool, hinit, hpb, hf]

/-- Concrete loaders and stages for the C6 counterexample. -/
def c6Loaders : List (String × List Int) := [("d", [1])]

/-- Stage 1: adds one to every record. -/
def c6Stage1 : PTask Int Unit :=
  { loaderNames := .strs ["d"]
    models := []
    processBatch := fun data => .ok (data.map (fun r => r + 1))
    finalize := none }

/-- Stage 2: multiplies every record by ten. -/
def c6Stage2 : PTask Int Unit :=
  { loaderNames := .strs ["d"]
    models := []
    processBatch := fun data => .ok (data.map (fun r => r * 10))
    finalize := none }

/-- Claim C6 counterexample: with loader d = [1], stage 1 adding 1 and stage
2 multiplying by 10, composing the stages as the claim describes would give
[20]; the pipeline instead returns [10], because stage 2 receives the
freshly reloaded [1] rather than stage 1's output [2]. -/
theorem C6_counterexample :
    runPipeline c6Loaders [c6Stage1, c6Stage2] = .ok [10]
    ∧ runPipeline c6Loaders [c6Stage1, c6Stage2] ≠
        .ok ((([1] : List Int).map (fun r => r + 1)).map (fun r => r * 10)) := by
  constructor
  · rfl
  · intro h
    rw [show runPipeline c6Loaders [c6Stage1, c6Stage2] = .ok [10] from rfl] at h
    simp at h

/-- Claim C6 (amended): each stage's input is freshly loaded from its own
configured loaders, so when every earlier stage succeeds the pipeline result
is exactly the final stage's own step result — independent of every earlier
stage's transformation, whose output is discarded. -/
theorem C6_amended_stage_output_discarded {ρ μ : Type}
    (loaders : List (String × List ρ)) (ts : List (PTask ρ μ)) (t : PTask ρ μ)
    (hok : ∀ t' ∈ ts, ((runTaskStep loaders t').1).isOk = true) :
    runPipeline loaders (ts ++ [t]) = (runTaskStep loaders t).1 := by
  unfold runPipeline
  have main : ∀ (ts2 : List (PTask ρ μ)) (acc : Option (List ρ)),
      (∀ t' ∈ ts2, ((runTaskStep loaders t').1).isOk = true) →
      runPipelineGo loaders (ts2 ++ [t]) acc = (runTaskStep loaders t).1 := by
    intro ts2
    induction ts2 with
    | nil =>
      intro acc _
      rw [List.nil_append]
      rcases h : (runTaskStep loaders t).1 with e | d2
      · rw [runPipelineGo, h]
      · rw [runPipelineGo, h]
        rfl
    | cons t' rest ih =>
      intro acc hok2
      have h1 := hok2 t' (List.mem_cons_self t' rest)
      rcases h : (runTaskStep loaders t').1 with e | d2
      · rw [h] at h1
        exact Bool.noConfusion h1
      · rw [List.cons_append, runPipelineGo, h]
        exact ih (some d2) (fun x hx => hok2 x (List.mem_cons_of_mem t' hx))
  exact main ts none hok

/-- Claim C6 witness: the amended theorem applied to the two concrete
stages; the result equals stage 2's own step outcome. -/
theorem C6_amended_witness :
    runPipeline c6Loaders [c6Stage1, c6Stage2] =
      (runTaskStep c6Loaders c6Stage2).1 :=
  C6_amended_stage_output_discarded c6Loaders [c6Stage1] c6Stage2 (by decide)

/-- Status of one dispatcher task with respect to the semaphore protocol
`async with semaphore: ... await send(...)` inside `fetch` /
`get_completion`. -/
inductive TStatus where
  | waiting
  | running
  | done
  deriving DecidableEq, Repr

/-- Event-loop state of one dispatch: the free permits of
`asyncio.Semaphore(concurrency)` and the status of every task. -/
structure SemState where
  avail : Nat
  tasks : List TStatus
  deriving DecidableEq, Repr

/-- Number of send calls currently in flight. -/
def inFlight (s : SemState) : Nat :=
  s.tasks.countP (fun t => t == TStatus.running)

/-- Initial state of a dispatch with concurrency limit `c` and `n` tasks:
all tasks created, none started, all permits free. -/
def initState (c n : Nat) : SemState :=
  ⟨c, List.replicate n TStatus.waiting⟩

/-- Interleaving semantics of the cooperative event loop: a waiting task may
enter the `async with semaphore` block only when a permit is free (otherwise
it stays queued), and a running task may finish its send, releasing its
permit.  These are the only suspension points of the dispatchers. -/
inductive SemStep : SemState → SemState → Prop where
  | acquire (s : SemState) (j k : Nat)
      (hj : s.tasks[j]? = some TStatus.waiting) (ha : s.avail = k + 1) :
      SemStep s ⟨k, s.tasks.set j TStatus.running⟩
  | finish (s : SemState) (j : Nat)
      (hj : s.tasks[j]? = some TStatus.running) :
      SemStep s ⟨s.avail + 1, s.tasks.set j TStatus.done⟩

theorem countP_replicate_waiting (n : Nat) :
    (List.replicate n TStatus.waiting).countP
      (fun t => t == TStatus.running) = 0 := by
  induction n with
  | zero => rfl
  | succ m ih =>
    rw [List.replicate_succ, List.countP_cons]
    simp [ih]

theorem semStep_preserves {s s' : SemState} (c : Nat)
    (hstep : SemStep s s') (hinv : inFlight s + s.avail = c) :
    inFlight s' + s'.avail = c := by
  cases hstep with
  | acquire j k hj ha =>
    rcases List.getElem?_eq_some.mp hj with ⟨hlt, hval⟩
    have hcount := List.countP_set
      (fun t => t == TStatus.running) s.tasks j TStatus.running hlt
    rw [hval] at hcount
    simp at hcount
    unfold inFlight at hinv
    show (s.tasks.set j TStatus.running).countP
        (fun t => t == TStatus.running) + k = c
    rw [hcount]
    rw [ha] at hinv
    omega
  | finish j hj =>
    rcases List.getElem?_eq_some.mp hj with ⟨hlt, hval⟩
    have hcount := List.countP_set
      (fun t => t == TStatus.running) s.tasks j TStatus.done hlt
    rw [hval] at hcount
    simp at hcount
    have hpos : 0 < s.tasks.countP (fun t => t == TStatus.running) := by
      rw [List.countP_pos_iff]
      exact ⟨TStatus.running, hval ▸ List.getElem_mem hlt, rfl⟩
    unfold inFlight at hinv
    show (s.tasks.set j TStatus.done).countP
        (fun t => t == TStatus.running) + (s.avail + 1) = c
    rw [hcount]
    omega

theorem semInvariant (c n : Nat) :
    ∀ s, Relation.ReflTransGen SemStep (initState c n) s →
      inFlight s + s.avail = c := by
  intro s h
  induction h with
  | refl =>
    unfold inFlight initState
    simp [countP_replicate_waiting]
  | tail _ hstep ih => exact semStep_preserves c hstep ih

/-- Claim C8: during any dispatch with concurrency limit c, at no point are
more than c send calls simultaneously in flight — a task can start its send
only by taking one of the c semaphore permits, and tasks beyond the limit
wait until a permit frees.  The bound holds in every state the event loop
can reach. -/
theorem C8_concurrency_bound (c n : Nat) (s : SemState)
    (hreach : Relation.ReflTransGen SemStep (initState c n) s) :
    inFlight s ≤ c := by
  have h := semInvariant c n s hreach
  omega

/-- Claim C8 witness: limit 1 with two tasks, after one task acquired the
only permit — one call in flight, within the bound; the second task still
waits. -/
theorem C8_witness : inFlight ⟨0, [TStatus.running, TStatus.waiting]⟩ ≤ 1 :=
  C8_concurrency_bound 1 2 ⟨0, [TStatus.running, TStatus.waiting]⟩
    (Relation.ReflTransGen.single
      (SemStep.acquire (initState 1 2) 0 0 (by rfl) (by rfl)))

/-- The fixed option order `options = ['A', 'B', 'C', 'D']` of
`calculate_mutual_metrics`. -/
def mutualOptions : List String := ["A", "B", "C", "D"]

/-- `options.index(x) if x in options else -1`. -/
def optIndex (x : String) : Int :=
  if x = "A" then 0
  else if x = "B" then 1
  else if x = "C" then 2
  else if x = "D" then 3
  else -1

/-- Accumulators of the metric loop: the Recall@1 count, the Recall@2 count
and the MRR sum.  Python float arithmetic is modelled with exact rationals;
the constants the claim involves (1.0 and 0.5) are exactly representable in
both. -/
structure MutualAcc where
  r1 : Nat
  r2 : Nat
  mrr : ℚ

/-- The loop body of `calculate_mutual_metrics` for one
(prediction, correct answer) pair. -/
def mutualStep (acc : MutualAcc) (pc : String × String) : MutualAcc :=
  if pc.1 = pc.2 then ⟨acc.r1 + 1, acc.r2 + 1, acc.mrr + 1⟩
  else
    let pIdx := optIndex pc.1
    let cIdx := optIndex pc.2
    if (pIdx - cIdx).natAbs ≤ 1 ∧ pIdx ≠ -1 ∧ cIdx ≠ -1 then
      ⟨acc.r1, acc.r2 + 1, acc.mrr + 1 / 2⟩
    else if cIdx ≠ -1 then
      ⟨acc.r1, acc.r2, acc.mrr + 1 / ((cIdx : ℚ) + 1)⟩
    else acc

/-- Embedding of `calculate_mutual_metrics`: length check, empty-input
shortcut, loop, and division by the sample count. -/
def calculateMutualMetrics (preds correct : List String) :
    Except PyErr (ℚ × ℚ × ℚ) :=
  if preds.length ≠ correct.length then
    .error (.valueError "Predictions and correct answers must have the same length")
  else if preds.length = 0 then .ok (0, 0, 0)
  else
    let acc := (preds.zip correct).foldl mutualStep ⟨0, 0, 0⟩
    .ok (acc.r1 / preds.length, acc.r2 / preds.length, acc.mrr / preds.length)

/-- Claim C9: in `calculate_mutual_metrics`, when a sample's prediction is
wrong and both the prediction and the correct answer are members of
['A','B','C','D'], the sample is credited to Recall@2 exactly when the two
option indices differ by at most 1 (adjacency) — the function has no
information about the model's true top-2 choices — and in that adjacent
case 0.5 is added to the MRR sum (Recall@1 is never credited here). -/
theorem C9_recall2_adjacency (acc : MutualAcc) (pred correct : String)
    (hp : pred ∈ mutualOptions) (hc : correct ∈ mutualOptions)
    (hne : pred ≠ correct) :
    ((mutualStep acc (pred, correct)).r2 = acc.r2 + 1 ↔
      (optIndex pred - optIndex correct).natAbs ≤ 1)
    ∧ ((optIndex pred - optIndex correct).natAbs ≤ 1 →
        (mutualStep acc (pred, correct)).mrr = acc.mrr + 1 / 2)
    ∧ (mutualStep acc (pred, correct)).r1 = acc.r1 := by
  fin_cases hp <;> fin_cases hc <;> simp_all [mutualStep, optIndex]

/-- Claim C9 witness: prediction A against correct answer B — adjacent
options, so Recall@2 is credited and the MRR sum gains one half. -/
theorem C9_witness :
    ((mutualStep ⟨0, 0, 0⟩ ("A", "B")).r2 = 0 + 1 ↔
      (optIndex "A" - optIndex "B").natAbs ≤ 1)
    ∧ ((optIndex "A" - optIndex "B").natAbs ≤ 1 →
        (mutualStep ⟨0, 0, 0⟩ ("A", "B")).mrr = 0 + 1 / 2)
    ∧ (mutualStep ⟨0, 0, 0⟩ ("A", "B")).r1 = 0 :=
  C9_recall2_adjacency ⟨0, 0, 0⟩ "A" "B" (by decide) (by decide) (by decide)
